import Mathlib

/-!
Verification of `tmtoolkit.topicmod.model_stats` (topic-model statistics).

The Python module is a collection of pure functions over numeric matrices.
We embed them shallowly:

* 2D matrices become `List (List _)` (rows); numpy's guarantee that rows of a
  2D array all have the same length becomes explicit rectangularity
  hypotheses in theorems.
* score values (floats) become an arbitrary `LinearOrder` for the discrete,
  ranking-related functions, and `ℝ` for the logarithm/KL based scores.
* Python exceptions become `Except PyError _`; `PyError` distinguishes the
  exception class raised (`ValueError`, `IndexError`, `AssertionError`).
* `np.argsort` is modelled as a stable argsort: indices ordered
  lexicographically by (score value, original index).  Stability is encoded
  directly in the comparison relation, so the result does not depend on the
  sorting algorithm used.
-/

/-- Exception classes that the Python module can raise. -/
inductive PyError : Type where
  | valueError (msg : String) : PyError
  | indexError : PyError
  | assertionError : PyError
deriving DecidableEq, Repr

/-- Comparison key used to model `np.argsort`: pairs (original index, score)
are ordered by score, ties broken by the lower original index. -/
def keyRel {β : Type} [LinearOrder β] (a b : Nat × β) : Prop :=
  a.2 < b.2 ∨ (a.2 = b.2 ∧ a.1 ≤ b.1)

instance {β : Type} [LinearOrder β] : DecidableRel (keyRel (β := β)) :=
  fun a b => inferInstanceAs (Decidable (_ ∨ _))

instance {β : Type} [LinearOrder β] : IsTotal (Nat × β) keyRel where
  total a b := by
    rcases lt_trichotomy a.2 b.2 with h | h | h
    · exact Or.inl (Or.inl h)
    · rcases Nat.le_total a.1 b.1 with h' | h'
      · exact Or.inl (Or.inr ⟨h, h'⟩)
      · exact Or.inr (Or.inr ⟨h.symm, h'⟩)
    · exact Or.inr (Or.inl h)

instance {β : Type} [LinearOrder β] : IsTrans (Nat × β) keyRel where
  trans a b c hab hbc := by
    rcases hab with h1 | ⟨h1, h1'⟩ <;> rcases hbc with h2 | ⟨h2, h2'⟩
    · exact Or.inl (h1.trans h2)
    · exact Or.inl (lt_of_lt_of_eq h1 h2)
    · exact Or.inl (lt_of_eq_of_lt h1 h2)
    · exact Or.inr ⟨h1.trans h2, h1'.trans h2'⟩

/-- Embedding of `np.argsort(score)`: the list of indices `0..len-1` ordered
by ascending score, ties resolved towards the lower original index (stable
argsort). -/
def argsort {β : Type} [LinearOrder β] (score : List β) : List Nat :=
  (score.enum.insertionSort keyRel).map Prod.fst

/-- Embedding of `_words_by_score(words, score, least_to_most, n)`.
Mirrors the Python source: shape check, range check on `n`, argsort (reversed
when `least_to_most` is false), fancy indexing `words[indices]` (expressed
with `filterMap`, total because argsort indices are always in range), and
truncation `ordered_words[:n]`. -/
def _words_by_score {α β : Type} [LinearOrder β] (words : List α) (score : List β)
    (least_to_most : Bool) (n : Option Int) : Except PyError (List α) :=
  if words.length ≠ score.length then
    .error (.valueError "`words` and `score` must have the same shape")
  else if n.any (fun k => decide (k ≤ 0 ∨ (words.length : Int) < k)) then
    .error (.valueError "`n` must be in range [0, len(words)]")
  else
    let indices := if least_to_most then argsort score else (argsort score).reverse
    let ordered := indices.filterMap (fun i => words[i]?)
    match n with
    | none => .ok ordered
    | some k => .ok (ordered.take k.toNat)

section ArgsortLemmas

variable {β : Type} [LinearOrder β]

theorem argsort_perm_range (score : List β) :
    (argsort score).Perm (List.range score.length) := by
  have h := (List.perm_insertionSort keyRel score.enum).map Prod.fst
  rwa [List.enum_map_fst] at h

theorem argsort_nodup (score : List β) : (argsort score).Nodup :=
  (argsort_perm_range score).nodup_iff.mpr (List.nodup_range _)

theorem mem_argsort_iff (score : List β) (i : Nat) :
    i ∈ argsort score ↔ i < score.length := by
  rw [(argsort_perm_range score).mem_iff, List.mem_range]

/-- Elements of the sorted enum are (index, value-at-index) pairs. -/
theorem mem_sortedEnum (score : List β) (p : Nat × β)
    (hp : p ∈ score.enum.insertionSort keyRel) : score[p.1]? = some p.2 := by
  have := (List.perm_insertionSort keyRel score.enum).mem_iff.mp hp
  exact List.mem_enum_iff_getElem?.mp this

/-- The argsort list is pairwise ordered by the (value, index) key, read off
through the score list. -/
theorem argsort_pairwise (score : List β) :
    (argsort score).Pairwise (fun i j => ∀ vi vj, score[i]? = some vi →
      score[j]? = some vj → vi < vj ∨ (vi = vj ∧ i ≤ j)) := by
  have hs : (score.enum.insertionSort keyRel).Pairwise keyRel :=
    List.sorted_insertionSort keyRel score.enum
  have hs' : (score.enum.insertionSort keyRel).Pairwise
      (fun p q : Nat × β => ∀ vi vj, score[p.1]? = some vi →
        score[q.1]? = some vj → vi < vj ∨ (vi = vj ∧ p.1 ≤ q.1)) := by
    refine List.Pairwise.imp_of_mem ?_ hs
    intro p q hp hq hk vi vj hvi hvj
    have hp' := mem_sortedEnum score p hp
    have hq' := mem_sortedEnum score q hq
    rw [hp'] at hvi
    rw [hq'] at hvj
    cases hvi
    cases hvj
    exact hk
  unfold argsort
  rw [List.pairwise_map]
  exact hs'

end ArgsortLemmas

section PositionLemmas

/-- In a duplicate-free list that is pairwise ordered by `S`, an element `a`
appears strictly before `b` whenever `S b a` fails (and `a ≠ b`). -/
theorem indexOf_lt_indexOf_of_pairwise {l : List Nat} {S : Nat → Nat → Prop}
    (hnd : l.Nodup) (hP : l.Pairwise S) {a b : Nat} (ha : a ∈ l) (hb : b ∈ l)
    (hab : a ≠ b) (hS : ¬ S b a) : l.indexOf a < l.indexOf b := by
  have hal : l.indexOf a < l.length := List.indexOf_lt_length.mpr ha
  have hbl : l.indexOf b < l.length := List.indexOf_lt_length.mpr hb
  have hga : l.get ⟨l.indexOf a, hal⟩ = a := List.indexOf_get hal
  have hgb : l.get ⟨l.indexOf b, hbl⟩ = b := List.indexOf_get hbl
  rcases Nat.lt_trichotomy (l.indexOf a) (l.indexOf b) with h | h | h
  · exact h
  · exfalso
    apply hab
    rw [← hga, ← hgb]
    congr 1
    exact Fin.ext h
  · exfalso
    apply hS
    have := List.pairwise_iff_get.mp hP ⟨l.indexOf b, hbl⟩ ⟨l.indexOf a, hal⟩ h
    rwa [hga, hgb] at this
end PositionLemmas

/-- Indexing a whole list by the full range of valid positions returns the
list itself. -/
theorem filterMap_range_getElem {α : Type} (l : List α) :
    (List.range l.length).filterMap (fun i => l[i]?) = l := by
  induction l with
  | nil => simp
  | cons a tl ih =>
    rw [List.length_cons, List.range_succ_eq_map, List.filterMap_cons,
      List.filterMap_map]
    simp only [List.getElem?_cons_zero]
    have : (fun i => (a :: tl)[i]?) ∘ Nat.succ = fun i => tl[i]? := by
      funext i
      simp
    rw [this, ih]

/-- Any list of indices that is a permutation of the valid positions of `l`
selects a permutation of `l`. -/
theorem filterMap_perm_of_perm_range {α : Type} (l : List α) (idx : List Nat)
    (h : idx.Perm (List.range l.length)) :
    (idx.filterMap (fun i => l[i]?)).Perm l := by
  have := h.filterMap (fun i => l[i]?)
  rwa [filterMap_range_getElem] at this

instance {ε α : Type} [DecidableEq ε] [DecidableEq α] : DecidableEq (Except ε α) := fun x y =>
  match x, y with
  | .ok a, .ok b =>
    if h : a = b then .isTrue (by rw [h]) else .isFalse (by intro hc; cases hc; exact h rfl)
  | .error a, .error b =>
    if h : a = b then .isTrue (by rw [h]) else .isFalse (by intro hc; cases hc; exact h rfl)
  | .ok _, .error _ => .isFalse (by intro hc; cases hc)
  | .error _, .ok _ => .isFalse (by intro hc; cases hc)

/-- C1 (amended): with `np.argsort` modelled as a stable argsort, the
ascending ordering (`least_to_most=True`) breaks ties between equal scores
towards the lower original index.  The descending ordering is produced by
reversing the ascending index order, so for tied scores the item with the
HIGHER original index comes first.  `_words_by_score` returns the words
indexed by exactly these index lists. -/
theorem words_by_score_tie_order {α β : Type} [LinearOrder β]
    (words : List α) (score : List β) (h : words.length = score.length)
    (i j : Nat) (hij : i < j) (hj : j < score.length)
    (heq : score[i]? = score[j]?) :
    (argsort score).indexOf i < (argsort score).indexOf j
    ∧ ((argsort score).reverse).indexOf j < ((argsort score).reverse).indexOf i
    ∧ _words_by_score words score true none =
        .ok ((argsort score).filterMap (fun t => words[t]?))
    ∧ _words_by_score words score false none =
        .ok (((argsort score).reverse).filterMap (fun t => words[t]?)) := by
  have hi : i < score.length := hij.trans hj
  have hmi : i ∈ argsort score := (mem_argsort_iff score i).mpr hi
  have hmj : j ∈ argsort score := (mem_argsort_iff score j).mpr hj
  have hvi : score[i]? = some score[i] := List.getElem?_eq_getElem hi
  have hvj : score[j]? = some score[j] := List.getElem?_eq_getElem hj
  have hvv : score[i] = score[j] := by
    rw [hvi, hvj] at heq
    exact Option.some.inj heq
  have hne : i ≠ j := Nat.ne_of_lt hij
  have hS : ¬ (∀ vj vi, score[j]? = some vj → score[i]? = some vi →
      vj < vi ∨ (vj = vi ∧ j ≤ i)) := by
    intro hS'
    rcases hS' score[j] score[i] hvj hvi with hlt | ⟨_, hle⟩
    · rw [hvv] at hlt
      exact lt_irrefl _ hlt
    · omega
  refine ⟨?_, ?_, ?_, ?_⟩
  · exact indexOf_lt_indexOf_of_pairwise (argsort_nodup score) (argsort_pairwise score)
      hmi hmj hne hS
  · have hrevP : ((argsort score).reverse).Pairwise
        (fun a b => ∀ vb va, score[b]? = some vb → score[a]? = some va →
          vb < va ∨ (vb = va ∧ b ≤ a)) :=
      List.pairwise_reverse.mpr (argsort_pairwise score)
    exact indexOf_lt_indexOf_of_pairwise (List.nodup_reverse.mpr (argsort_nodup score))
      hrevP (List.mem_reverse.mpr hmj) (List.mem_reverse.mpr hmi) hne.symm hS
  · simp [_words_by_score, h]
  · simp [_words_by_score, h]

/-- Witness for `words_by_score_tie_order` at a concrete tied input. -/
theorem words_by_score_tie_order_witness :
    ((0 : Nat) < 1 ∧ 1 < 2 ∧ ([(5 : Int), 5])[0]? = ([(5 : Int), 5])[1]?)
    ∧ ((argsort [(5 : Int), 5]).indexOf 0 < (argsort [(5 : Int), 5]).indexOf 1
      ∧ ((argsort [(5 : Int), 5]).reverse).indexOf 1 <
          ((argsort [(5 : Int), 5]).reverse).indexOf 0
      ∧ _words_by_score ["a", "b"] [(5 : Int), 5] true none =
          .ok ((argsort [(5 : Int), 5]).filterMap (fun t => (["a", "b"])[t]?))
      ∧ _words_by_score ["a", "b"] [(5 : Int), 5] false none =
          .ok (((argsort [(5 : Int), 5]).reverse).filterMap
            (fun t => (["a", "b"])[t]?))) :=
  ⟨⟨by decide, by decide, by decide⟩,
    words_by_score_tie_order ["a", "b"] [(5 : Int), 5] (by decide) 0 1
      (by decide) (by decide) (by decide)⟩

/-- C1 (counterexample): with tied scores and `least_to_most=False`
(descending), the item with the HIGHER original index comes first: ordering
the items `[0, 1]` by the tied scores `[1, 1]` descending yields `[1, 0]`,
not `[0, 1]` as the claim's tie-breaking rule requires. -/
theorem words_by_score_desc_tie_cex :
    _words_by_score [0, 1] [(1 : Int), 1] false none = .ok [1, 0]
    ∧ _words_by_score [0, 1] [(1 : Int), 1] false none ≠ .ok [0, 1] := by
  constructor
  · rfl
  · decide

/-- C9: with `top_n=None` and equal-length inputs, `_words_by_score` returns
a permutation of `words` (same length, same multiset of elements), for both
orderings. -/
theorem words_by_score_is_perm {α β : Type} [LinearOrder β]
    (words : List α) (score : List β) (b : Bool)
    (h : words.length = score.length) :
    ∃ out, _words_by_score words score b none = .ok out ∧ out.Perm words := by
  have h1 : (argsort score).Perm (List.range words.length) := by
    rw [h]
    exact argsort_perm_range score
  have hperm : (((if b then argsort score else (argsort score).reverse).filterMap
      (fun i => words[i]?))).Perm words := by
    apply filterMap_perm_of_perm_range
    cases b
    · exact ((argsort score).reverse_perm).trans h1
    · exact h1
  refine ⟨_, ?_, hperm⟩
  cases b <;> simp [_words_by_score, h]

/-- Witness for `words_by_score_is_perm` at a concrete input. -/
theorem words_by_score_is_perm_witness :
    ([10, 20].length = [(1 : Int), 2].length)
    ∧ (∃ out, _words_by_score [10, 20] [(1 : Int), 2] true none = .ok out
        ∧ out.Perm [10, 20]) :=
  ⟨by decide, words_by_score_is_perm [10, 20] [(1 : Int), 2] true (by decide)⟩

/-- Number of columns of a 2D matrix represented as a list of rows
(numpy's `shape[1]`; rows of a 2D numpy array all have equal length, which
theorems carry as rectangularity hypotheses). -/
def ncols {γ : Type} (m : List (List γ)) : Nat :=
  match m with
  | [] => 0
  | row :: _ => row.length

/-- Embedding of `_check_relevant_words_for_topic_args(vocab, rel_mat, topic)`.
The `rel_mat.ndim != 2` check cannot fail in this representation (the type is
inherently 2D); the remaining two checks are modelled faithfully.  Note the
out-of-range `topic` raises `ValueError`, not `IndexError`. -/
def _check_relevant_words_for_topic_args {α γ : Type} (vocab : List α)
    (rel_mat : List (List γ)) (topic : Int) : Except PyError Unit :=
  if vocab.length ≠ ncols rel_mat then
    .error (.valueError "the length of the `vocab` array must match the number of columns in `rel_mat`")
  else if ¬ (0 ≤ topic ∧ topic < (rel_mat.length : Int)) then
    .error (.valueError "`topic` must be a topic index in range [0,n_topics)")
  else
    .ok ()

/-- Embedding of `get_most_relevant_words_for_topic(vocab, rel_mat, topic, n)`:
check arguments, then order `vocab` by the row `rel_mat[topic]` descending. -/
def get_most_relevant_words_for_topic {α β : Type} [LinearOrder β] (vocab : List α)
    (rel_mat : List (List β)) (topic : Int) (n : Option Int) :
    Except PyError (List α) :=
  match _check_relevant_words_for_topic_args vocab rel_mat topic with
  | .error e => .error e
  | .ok _ => _words_by_score vocab (rel_mat.getD topic.toNat []) false n

/-- Embedding of `get_least_relevant_words_for_topic(vocab, rel_mat, topic, n)`:
check arguments, then order `vocab` by the row `rel_mat[topic]` ascending. -/
def get_least_relevant_words_for_topic {α β : Type} [LinearOrder β] (vocab : List α)
    (rel_mat : List (List β)) (topic : Int) (n : Option Int) :
    Except PyError (List α) :=
  match _check_relevant_words_for_topic_args vocab rel_mat topic with
  | .error e => .error e
  | .ok _ => _words_by_score vocab (rel_mat.getD topic.toNat []) true n

/-- C4 (amended): for a relevance matrix whose column count matches `vocab`
and a topic index outside `[0, n_topics)`, both ranking functions fail with
`ValueError` (not `IndexError`). -/
theorem relevant_words_out_of_range_valueError {α β : Type} [LinearOrder β]
    (vocab : List α) (rel_mat : List (List β)) (topic : Int) (n : Option Int)
    (hcols : vocab.length = ncols rel_mat)
    (htopic : topic < 0 ∨ (rel_mat.length : Int) ≤ topic) :
    get_most_relevant_words_for_topic vocab rel_mat topic n =
      .error (.valueError "`topic` must be a topic index in range [0,n_topics)")
    ∧ get_least_relevant_words_for_topic vocab rel_mat topic n =
      .error (.valueError "`topic` must be a topic index in range [0,n_topics)") := by
  have hcheck : _check_relevant_words_for_topic_args vocab rel_mat topic =
      .error (.valueError "`topic` must be a topic index in range [0,n_topics)") := by
    unfold _check_relevant_words_for_topic_args
    rw [if_neg (by omega), if_pos (by omega)]
  constructor
  · unfold get_most_relevant_words_for_topic
    rw [hcheck]
  · unfold get_least_relevant_words_for_topic
    rw [hcheck]

/-- Witness for `relevant_words_out_of_range_valueError` at a concrete
out-of-range topic index. -/
theorem relevant_words_out_of_range_valueError_witness :
    ((["w"].length = ncols [[(3 : Int)]]) ∧ ((5 : Int) < 0 ∨ (([[(3 : Int)]].length : Int) ≤ 5)))
    ∧ (get_most_relevant_words_for_topic ["w"] [[(3 : Int)]] 5 none =
        .error (.valueError "`topic` must be a topic index in range [0,n_topics)")
      ∧ get_least_relevant_words_for_topic ["w"] [[(3 : Int)]] 5 none =
        .error (.valueError "`topic` must be a topic index in range [0,n_topics)")) :=
  ⟨⟨by decide, by decide⟩,
    relevant_words_out_of_range_valueError ["w"] [[(3 : Int)]] 5 none (by decide)
      (by decide)⟩

/-- C4 (counterexample): at a concrete out-of-range topic index, the failure
is a `ValueError`, not the `IndexError` the claim states. -/
theorem relevant_words_out_of_range_not_indexError_cex :
    get_most_relevant_words_for_topic ["w"] [[(3 : Int)]] 5 none ≠ .error .indexError
    ∧ get_least_relevant_words_for_topic ["w"] [[(3 : Int)]] 5 none ≠ .error .indexError
    ∧ get_most_relevant_words_for_topic ["w"] [[(3 : Int)]] 5 none =
        .error (.valueError "`topic` must be a topic index in range [0,n_topics)") := by
  refine ⟨by decide, by decide, by decide⟩

/-- Fuel-based decimal digit extraction (little-endian), used to model
Python's decimal formatting of an integer.  With fuel at least `n` it agrees
with `Nat.digits 10 n`. -/
def decDigits : Nat → Nat → List Nat
  | 0, _ => []
  | fuel + 1, n => if n = 0 then [] else n % 10 :: decDigits fuel (n / 10)

/-- Embedding of Python's `str(n)` for a non-negative integer `n`: its
decimal representation. -/
def pyStrNat (n : Nat) : String :=
  if n = 0 then "0" else String.mk (((decDigits n n).map Nat.digitChar).reverse)

theorem decDigits_eq_digits : ∀ (fuel n : Nat), n ≤ fuel →
    decDigits fuel n = Nat.digits 10 n := by
  intro fuel
  induction fuel with
  | zero =>
    intro n hn
    interval_cases n
    simp [decDigits]
  | succ f ih =>
    intro n hn
    by_cases h0 : n = 0
    · simp [decDigits, h0]
    · have hpos : 0 < n := Nat.pos_of_ne_zero h0
      have hdiv : n / 10 ≤ f := by
        have := Nat.div_lt_self hpos (by norm_num : (1 : Nat) < 10)
        omega
      rw [decDigits, if_neg h0, ih _ hdiv, Nat.digits_def' (by norm_num : 1 < 10) hpos]

theorem mem_decDigits_lt_ten {n d : Nat} (hd : d ∈ decDigits n n) : d < 10 := by
  rw [decDigits_eq_digits n n le_rfl] at hd
  exact Nat.digits_lt_base (by norm_num) hd

theorem digitChar_ne_underscore : ∀ d, d < 10 → Nat.digitChar d ≠ '_' := by
  decide

theorem digitChar_inj_lt_ten : ∀ d, d < 10 → ∀ e, e < 10 →
    Nat.digitChar d = Nat.digitChar e → d = e := by
  decide

/-- The decimal representation of a natural number contains no underscore. -/
theorem pyStrNat_no_underscore (n : Nat) : '_' ∉ (pyStrNat n).data := by
  unfold pyStrNat
  split
  · decide
  · intro hmem
    simp only [String.data] at hmem
    rw [List.mem_reverse, List.mem_map] at hmem
    obtain ⟨d, hd, hdc⟩ := hmem
    exact digitChar_ne_underscore d (mem_decDigits_lt_ten hd) hdc

theorem map_digitChar_inj {l1 l2 : List Nat} (h1 : ∀ d ∈ l1, d < 10)
    (h2 : ∀ d ∈ l2, d < 10) (h : l1.map Nat.digitChar = l2.map Nat.digitChar) :
    l1 = l2 := by
  induction l1 generalizing l2 with
  | nil =>
    cases l2 with
    | nil => rfl
    | cons b tl2 => simp at h
  | cons a tl1 ih =>
    cases l2 with
    | nil => simp at h
    | cons b tl2 =>
      simp only [List.map_cons, List.cons.injEq] at h
      have ha : a = b := digitChar_inj_lt_ten a (h1 a (by simp)) b (h2 b (by simp)) h.1
      have htl : tl1 = tl2 :=
        ih (fun d hd => h1 d (by simp [hd])) (fun d hd => h2 d (by simp [hd])) h.2
      rw [ha, htl]

/-- Decimal representation is injective. -/
theorem pyStrNat_inj {m n : Nat} (h : pyStrNat m = pyStrNat n) : m = n := by
  by_cases hm : m = 0 <;> by_cases hn : n = 0
  · omega
  · exfalso
    unfold pyStrNat at h
    rw [if_pos hm, if_neg hn] at h
    have hdata : ("0" : String).data =
        (((decDigits n n).map Nat.digitChar).reverse) := congrArg String.data h
    have h0 : ((decDigits n n).map Nat.digitChar).reverse = ['0'] := hdata.symm
    have : (decDigits n n).map Nat.digitChar = ['0'] := by
      have := congrArg List.reverse h0
      simpa using this
    have hdig : decDigits n n = [0] := by
      have h10 : (0 : Nat) < 10 := by norm_num
      refine map_digitChar_inj (fun d hd => mem_decDigits_lt_ten hd) ?_ ?_
      · intro d hd
        simp at hd
        omega
      · rw [this]
        decide
    rw [decDigits_eq_digits n n le_rfl] at hdig
    have := congrArg (Nat.ofDigits 10) hdig
    rw [Nat.ofDigits_digits] at this
    simp [Nat.ofDigits] at this
    exact hn this
  · exfalso
    unfold pyStrNat at h
    rw [if_neg hm, if_pos hn] at h
    have hdata : (((decDigits m m).map Nat.digitChar).reverse) =
        ("0" : String).data := congrArg String.data h
    have : (decDigits m m).map Nat.digitChar = ['0'] := by
      have := congrArg List.reverse hdata
      simpa using this
    have hdig : decDigits m m = [0] := by
      refine map_digitChar_inj (fun d hd => mem_decDigits_lt_ten hd) ?_ ?_
      · intro d hd
        simp at hd
        omega
      · rw [this]
        decide
    rw [decDigits_eq_digits m m le_rfl] at hdig
    have := congrArg (Nat.ofDigits 10) hdig
    rw [Nat.ofDigits_digits] at this
    simp [Nat.ofDigits] at this
    exact hm this
  · unfold pyStrNat at h
    rw [if_neg hm, if_neg hn] at h
    have hdata := congrArg String.data h
    simp only [String.data] at hdata
    have hmap : (decDigits m m).map Nat.digitChar = (decDigits n n).map Nat.digitChar := by
      have := congrArg List.reverse hdata
      simpa using this
    have hdig : decDigits m m = decDigits n n :=
      map_digitChar_inj (fun d hd => mem_decDigits_lt_ten hd)
        (fun d hd => mem_decDigits_lt_ten hd) hmap
    rw [decDigits_eq_digits m m le_rfl, decDigits_eq_digits n n le_rfl] at hdig
    have := congrArg (Nat.ofDigits 10) hdig
    rwa [Nat.ofDigits_digits, Nat.ofDigits_digits] at this

/-- Splitting a character list at a distinguished separator character that
occurs in neither prefix determines both parts. -/
theorem append_sep_inj {c : Char} : ∀ (l1 l2 r1 r2 : List Char), c ∉ l1 → c ∉ l2 →
    l1 ++ c :: r1 = l2 ++ c :: r2 → l1 = l2 ∧ r1 = r2 := by
  intro l1
  induction l1 with
  | nil =>
    intro l2 r1 r2 _ hc2 h
    cases l2 with
    | nil =>
      simp only [List.nil_append, List.cons.injEq] at h
      exact ⟨rfl, h.2⟩
    | cons b tl2 =>
      exfalso
      simp only [List.nil_append, List.cons_append, List.cons.injEq] at h
      exact hc2 (by simp [← h.1])
  | cons a tl1 ih =>
    intro l2 r1 r2 hc1 hc2 h
    cases l2 with
    | nil =>
      exfalso
      simp only [List.cons_append, List.nil_append, List.cons.injEq] at h
      exact hc1 (by simp [h.1])
    | cons b tl2 =>
      simp only [List.cons_append, List.cons.injEq] at h
      have := ih tl2 r1 r2 (fun hm => hc1 (by simp [hm])) (fun hm => hc2 (by simp [hm])) h.2
      exact ⟨by rw [h.1, this.1], this.2⟩

/-- Embedding of the default `labels_format='{i1}_{topwords}'`: a label is the
one-based topic index, an underscore, then the glued top words. -/
def defaultLabelsFormat (_i0 i1 : Nat) (topwords : String) : String :=
  pyStrNat i1 ++ "_" ++ topwords

/-- Labels produced by the default format are injective in the topic index,
whatever the top-words part is. -/
theorem defaultLabelsFormat_inj {i j i0 j0 : Nat} {a b : String}
    (h : defaultLabelsFormat i0 i a = defaultLabelsFormat j0 j b) : i = j := by
  unfold defaultLabelsFormat at h
  have hdata := congrArg String.data h
  simp only [String.data_append] at hdata
  have hdata' : (pyStrNat i).data ++ '_' :: a.data =
      (pyStrNat j).data ++ '_' :: b.data := by
    simpa [List.append_assoc] using hdata
  have := append_sep_inj (pyStrNat i).data (pyStrNat j).data a.data b.data
    (pyStrNat_no_underscore i) (pyStrNat_no_underscore j) hdata'
  have hstr : pyStrNat i = pyStrNat j := by
    cases hpi : pyStrNat i with
    | mk di =>
      cases hpj : pyStrNat j with
      | mk dj =>
        have h1 : di = (pyStrNat i).data := by rw [hpi]
        have h2 : dj = (pyStrNat j).data := by rw [hpj]
        congr 1
        rw [h1, h2]
        exact this.1
  exact pyStrNat_inj hstr

/-- Sequential evaluation of a fallible function over a list (embeds a Python
list comprehension whose body may raise). -/
def tryMap {γ : Type} (f : Nat → Except PyError γ) : List Nat → Except PyError (List γ)
  | [] => .ok []
  | t :: ts =>
    match f t with
    | .error e => .error e
    | .ok x =>
      match tryMap f ts with
      | .error e => .error e
      | .ok xs => .ok (x :: xs)

/-- Embedding of the `for n in n_words: n_most_rel = [ws[:n] for ws in
most_rel_words]; if unique: break` loop: returns the prefixes of length of
the first candidate achieving uniqueness, the prefixes for the last candidate
if none does, and the initial value `[]` when there are no candidates. -/
def pickTopWordSeqs (most_rel_words : List (List String)) : List Nat → List (List String)
  | [] => []
  | n :: rest =>
    let cur := most_rel_words.map (fun ws => ws.take n)
    if cur.Nodup ∨ rest = [] then cur
    else pickTopWordSeqs most_rel_words rest

/-- Embedding of the final label formatting: each topic's word sequence is
glued and substituted into the format together with the topic indices. -/
def labelsFromSeqs (labels_format : Nat → Nat → String → String) (labels_glue : String)
    (seqs : List (List String)) : List String :=
  seqs.enum.map (fun p => labels_format p.1 (p.1 + 1) (String.intercalate labels_glue p.2))

/-- Embedding of `generate_topic_labels_from_top_words`.  The function's
label logic depends on `phi`, `theta` and `doc_lengths` only through the
relevance matrix `rel_mat = get_topic_word_relevance(...)` and its row count
(the number of topics), so the embedding takes `rel_mat` directly; a format
string is embedded as the function it denotes (see `defaultLabelsFormat` for
the default `'{i1}_{topwords}'`). -/
def generate_topic_labels_from_top_words {β : Type} [LinearOrder β]
    (rel_mat : List (List β)) (vocab : List String) (n_words : Option Int)
    (labels_glue : String) (labels_format : Nat → Nat → String → String) :
    Except PyError (List String) :=
  let checked : Except PyError (List Nat) :=
    match n_words with
    | none => .ok (List.range' 1 vocab.length)
    | some k =>
      if 1 ≤ k ∧ k ≤ (vocab.length : Int) then .ok [k.toNat]
      else .error (.valueError "`n_words` must be in range [1, len(vocab)]")
  match checked with
  | .error e => .error e
  | .ok ns =>
    match tryMap (fun t => get_most_relevant_words_for_topic vocab rel_mat (t : Int) none)
        (List.range rel_mat.length) with
    | .error e => .error e
    | .ok most_rel_words =>
      let n_most_rel := pickTopWordSeqs most_rel_words ns
      if n_most_rel.isEmpty then .error .assertionError
      else
        let topic_labels := labelsFromSeqs labels_format labels_glue n_most_rel
        if topic_labels.Nodup then .ok topic_labels
        else .error (.valueError "generated labels are not unique")

/-- The full (descending) relevance ranking of the vocabulary for each topic,
as computed by `get_most_relevant_words_for_topic(vocab, rel_mat, t)`. -/
def topicRankings {β : Type} [LinearOrder β] (rel_mat : List (List β))
    (vocab : List String) : List (List String) :=
  rel_mat.map (fun row => ((argsort row).reverse).filterMap (fun i => vocab[i]?))

theorem tryMap_ok_of_forall {γ : Type} (f : Nat → Except PyError γ) (g : Nat → γ) :
    ∀ (l : List Nat), (∀ t ∈ l, f t = .ok (g t)) → tryMap f l = .ok (l.map g)
  | [], _ => rfl
  | t :: ts, h => by
    rw [tryMap, h t (by simp), tryMap_ok_of_forall f g ts (fun u hu => h u (by simp [hu]))]
    rfl

theorem map_getD_range {A B : Type} (l : List A) (d : A) (F : A → B) :
    (List.range l.length).map (fun t => F (l.getD t d)) = l.map F := by
  induction l with
  | nil => rfl
  | cons a tl ih =>
    have h1 : ((fun t => F ((a :: tl).getD t d)) ∘ Nat.succ) = fun t => F (tl.getD t d) := by
      funext t
      simp
    rw [List.length_cons, List.range_succ_eq_map, List.map_cons, List.map_map, h1, ih]
    rfl

/-- Under rectangularity, `get_most_relevant_words_for_topic` succeeds on a
valid topic index and returns the topic's full descending ranking. -/
theorem get_most_relevant_ok {β : Type} [LinearOrder β] (rel_mat : List (List β))
    (vocab : List String) (hrect : ∀ row ∈ rel_mat, row.length = vocab.length)
    (t : Nat) (ht : t < rel_mat.length) :
    get_most_relevant_words_for_topic vocab rel_mat (t : Int) none =
      .ok (((argsort (rel_mat.getD t [])).reverse).filterMap (fun i => vocab[i]?)) := by
  have hrow : rel_mat.getD t [] = rel_mat[t] := by
    simp [List.getElem?_eq_getElem ht]
  have hlen : (rel_mat.getD t []).length = vocab.length := by
    rw [hrow]
    exact hrect _ (List.getElem_mem ht)
  have hncols : ncols rel_mat = vocab.length := by
    cases rel_mat with
    | nil => simp at ht
    | cons r _ => exact hrect r (by simp)
  unfold get_most_relevant_words_for_topic _check_relevant_words_for_topic_args
  rw [if_neg (by omega)]
  rw [if_neg (by push_neg; exact ⟨Int.natCast_nonneg t, by exact_mod_cast ht⟩)]
  simp only [Int.toNat_natCast]
  unfold _words_by_score
  rw [if_neg (by omega)]
  exact rfl

theorem topicRankings_tryMap_ok {β : Type} [LinearOrder β] (rel_mat : List (List β))
    (vocab : List String) (hrect : ∀ row ∈ rel_mat, row.length = vocab.length) :
    tryMap (fun t => get_most_relevant_words_for_topic vocab rel_mat (t : Int) none)
        (List.range rel_mat.length) = .ok (topicRankings rel_mat vocab) := by
  have h := tryMap_ok_of_forall
    (fun t => get_most_relevant_words_for_topic vocab rel_mat (t : Int) none)
    (fun t => ((argsort (rel_mat.getD t [])).reverse).filterMap (fun i => vocab[i]?))
    (List.range rel_mat.length)
    (fun t ht => get_most_relevant_ok rel_mat vocab hrect t (List.mem_range.mp ht))
  rw [h]
  congr 1
  exact map_getD_range rel_mat []
    (fun row => ((argsort row).reverse).filterMap (fun i => vocab[i]?))

theorem pickTopWordSeqs_break (most : List (List String)) :
    ∀ (l1 : List Nat) (nstar : Nat) (l2 : List Nat),
    (∀ m ∈ l1, ¬ (most.map (fun ws => ws.take m)).Nodup) →
    (most.map (fun ws => ws.take nstar)).Nodup →
    pickTopWordSeqs most (l1 ++ nstar :: l2) = most.map (fun ws => ws.take nstar)
  | [], nstar, l2, _, h2 => by
    rw [List.nil_append, pickTopWordSeqs, if_pos (Or.inl h2)]
  | m :: l1, nstar, l2, h1, h2 => by
    rw [List.cons_append, pickTopWordSeqs,
      if_neg (by simp [h1 m (by simp)]), pickTopWordSeqs_break most l1 nstar l2
        (fun u hu => h1 u (by simp [hu])) h2]

theorem pickTopWordSeqs_all_fail (most : List (List String)) :
    ∀ (l1 : List Nat) (last : Nat),
    (∀ m ∈ l1, ¬ (most.map (fun ws => ws.take m)).Nodup) →
    pickTopWordSeqs most (l1 ++ [last]) = most.map (fun ws => ws.take last)
  | [], last, _ => by
    rw [List.nil_append, pickTopWordSeqs, if_pos (Or.inr rfl)]
  | m :: l1, last, h1 => by
    rw [List.cons_append, pickTopWordSeqs,
      if_neg (by simp [h1 m (by simp)]), pickTopWordSeqs_all_fail most l1 last
        (fun u hu => h1 u (by simp [hu]))]

theorem pickTopWordSeqs_nil_most : ∀ (ns : List Nat), pickTopWordSeqs [] ns = []
  | [] => rfl
  | _ :: _ => by
    rw [pickTopWordSeqs, if_pos (Or.inl (by simp))]
    rfl

/-- With the default label format, generated labels are pairwise distinct
regardless of the word sequences (the one-based topic index is a prefix of
each label, separated by an underscore). -/
theorem labelsFromSeqs_default_nodup (glue : String) (seqs : List (List String)) :
    (labelsFromSeqs defaultLabelsFormat glue seqs).Nodup := by
  unfold labelsFromSeqs
  have henumfst : (seqs.enum.map Prod.fst).Nodup := by
    rw [List.enum_map_fst]
    exact List.nodup_range _
  have henum : seqs.enum.Nodup := List.Nodup.of_map Prod.fst henumfst
  refine List.Nodup.map_on ?_ henum
  intro p hp q hq heq
  have hfst : p.1 = q.1 := by
    have := defaultLabelsFormat_inj heq
    omega
  exact List.inj_on_of_nodup_map henumfst hp hq hfst

/-- C2 (amended): with `n_words=None`, PROVIDED at least one topic exists and
some prefix length in `[1, len(vocab)]` makes the per-topic top-word tuples
pairwise distinct, `generate_topic_labels_from_top_words` (default glue and
format) returns pairwise-distinct labels built from the SMALLEST such prefix
length.  (Without that proviso the loop falls through to the full-vocabulary
prefixes and, with the default format, still returns index-distinguished
labels; with zero topics it raises AssertionError.) -/
theorem generate_labels_minimal_unique {β : Type} [LinearOrder β]
    (rel_mat : List (List β)) (vocab : List String)
    (hrect : ∀ row ∈ rel_mat, row.length = vocab.length)
    (hne : rel_mat ≠ [])
    (hex : ∃ n, 1 ≤ n ∧ n ≤ vocab.length ∧
      ((topicRankings rel_mat vocab).map (fun ws => ws.take n)).Nodup) :
    ∃ nstar, 1 ≤ nstar ∧ nstar ≤ vocab.length
      ∧ ((topicRankings rel_mat vocab).map (fun ws => ws.take nstar)).Nodup
      ∧ (∀ m, 1 ≤ m → m < nstar →
          ¬ ((topicRankings rel_mat vocab).map (fun ws => ws.take m)).Nodup)
      ∧ generate_topic_labels_from_top_words rel_mat vocab none "_" defaultLabelsFormat
          = .ok (labelsFromSeqs defaultLabelsFormat "_"
              ((topicRankings rel_mat vocab).map (fun ws => ws.take nstar)))
      ∧ (labelsFromSeqs defaultLabelsFormat "_"
          ((topicRankings rel_mat vocab).map (fun ws => ws.take nstar))).Nodup := by
  obtain ⟨n0, hn01, hn0V, hP0⟩ := hex
  have hexk : ∃ k, ((topicRankings rel_mat vocab).map (fun ws => ws.take (k + 1))).Nodup := by
    refine ⟨n0 - 1, ?_⟩
    have h : n0 - 1 + 1 = n0 := by omega
    rw [h]
    exact hP0
  have hPstar := Nat.find_spec hexk
  have hmin : ∀ m, 1 ≤ m → m < Nat.find hexk + 1 →
      ¬ ((topicRankings rel_mat vocab).map (fun ws => ws.take m)).Nodup := by
    intro m h1 h2 hP
    refine Nat.find_min hexk (m := m - 1) (by omega) ?_
    have h : m - 1 + 1 = m := by omega
    rw [h]
    exact hP
  have hstarle : Nat.find hexk + 1 ≤ vocab.length := by
    by_contra hcon
    rcases Nat.lt_or_ge n0 (Nat.find hexk + 1) with hlt | hge
    · exact hmin n0 hn01 hlt hP0
    · omega
  refine ⟨Nat.find hexk + 1, by omega, hstarle, hPstar, hmin, ?_,
    labelsFromSeqs_default_nodup _ _⟩
  have htry := topicRankings_tryMap_ok rel_mat vocab hrect
  have hdecomp : List.range' 1 vocab.length =
      List.range' 1 (Nat.find hexk) ++ ((Nat.find hexk + 1) ::
        List.range' (Nat.find hexk + 2) (vocab.length - Nat.find hexk - 1)) := by
    have h4 : List.range' (Nat.find hexk + 1) (vocab.length - Nat.find hexk - 1 + 1) =
        (Nat.find hexk + 1) ::
          List.range' (Nat.find hexk + 2) (vocab.length - Nat.find hexk - 1) :=
      List.range'_succ (Nat.find hexk + 1) (vocab.length - Nat.find hexk - 1) 1
    have h5 := List.range'_append_1 1 (Nat.find hexk) (vocab.length - Nat.find hexk - 1 + 1)
    have e2 : vocab.length - Nat.find hexk - 1 + 1 + Nat.find hexk = vocab.length := by
      omega
    have e3 : 1 + Nat.find hexk = Nat.find hexk + 1 := by omega
    rw [e3, h4, e2] at h5
    exact h5.symm
  have hpick : pickTopWordSeqs (topicRankings rel_mat vocab) (List.range' 1 vocab.length) =
      (topicRankings rel_mat vocab).map (fun ws => ws.take (Nat.find hexk + 1)) := by
    rw [hdecomp]
    refine pickTopWordSeqs_break _ _ _ _ ?_ hPstar
    intro m hm
    rw [List.mem_range'_1] at hm
    exact hmin m hm.1 (by omega)
  have hmost : (topicRankings rel_mat vocab) ≠ [] := by
    intro hc
    apply hne
    unfold topicRankings at hc
    exact List.map_eq_nil_iff.mp hc
  unfold generate_topic_labels_from_top_words
  rw [htry]
  simp only []
  rw [hpick]
  rw [if_neg ?hempty]
  case hempty =>
    simp only [List.isEmpty_eq_true, List.map_eq_nil_iff]
    exact hmost
  rw [if_pos (labelsFromSeqs_default_nodup _ _)]

/-- Witness for `generate_labels_minimal_unique` at a concrete two-topic
input where prefix length 1 already separates the topics. -/
theorem generate_labels_minimal_unique_witness :
    ((∀ row ∈ [[(2 : Int), 1], [1, 2]], row.length = (["a", "b"] : List String).length)
      ∧ ([[(2 : Int), 1], [1, 2]] : List (List Int)) ≠ []
      ∧ (∃ n, 1 ≤ n ∧ n ≤ (["a", "b"] : List String).length ∧
          ((topicRankings [[(2 : Int), 1], [1, 2]] ["a", "b"]).map
            (fun ws => ws.take n)).Nodup))
    ∧ (∃ nstar, 1 ≤ nstar ∧ nstar ≤ (["a", "b"] : List String).length
      ∧ ((topicRankings [[(2 : Int), 1], [1, 2]] ["a", "b"]).map
          (fun ws => ws.take nstar)).Nodup
      ∧ (∀ m, 1 ≤ m → m < nstar →
          ¬ ((topicRankings [[(2 : Int), 1], [1, 2]] ["a", "b"]).map
            (fun ws => ws.take m)).Nodup)
      ∧ generate_topic_labels_from_top_words [[(2 : Int), 1], [1, 2]] ["a", "b"]
          none "_" defaultLabelsFormat
          = .ok (labelsFromSeqs defaultLabelsFormat "_"
              ((topicRankings [[(2 : Int), 1], [1, 2]] ["a", "b"]).map
                (fun ws => ws.take nstar)))
      ∧ (labelsFromSeqs defaultLabelsFormat "_"
          ((topicRankings [[(2 : Int), 1], [1, 2]] ["a", "b"]).map
            (fun ws => ws.take nstar))).Nodup) :=
  ⟨⟨by decide, by decide, ⟨1, by decide, by decide, by decide⟩⟩,
    generate_labels_minimal_unique [[(2 : Int), 1], [1, 2]] ["a", "b"] (by decide)
      (by decide) ⟨1, by decide, by decide, by decide⟩⟩

/-- C2 (counterexample): two topics with identical relevance rows over a
one-word vocabulary.  NO prefix length yields pairwise-distinct top-word
tuples (the only admissible length is 1 and it fails), yet the function still
returns labels; hence no "smallest prefix length achieving distinctness" is
used, contrary to the claim. -/
theorem generate_labels_minimal_unique_cex :
    ¬ ((topicRankings [[(1 : Int)], [(1 : Int)]] ["a"]).map (fun ws => ws.take 1)).Nodup
    ∧ generate_topic_labels_from_top_words [[(1 : Int)], [(1 : Int)]] ["a"] none "_"
        defaultLabelsFormat = .ok ["1_a", "2_a"] :=
  ⟨by decide, by decide⟩

/-- C3 (amended): when NO prefix length yields pairwise-distinct per-topic
top-word tuples, the search loop falls through with the full-vocabulary
prefixes; the `assert n_most_rel` only checks non-emptiness and passes
whenever there is at least one topic, and with the default label format the
function returns normally with index-distinguished labels — it raises
neither an AssertionError nor (with the default format) a ValueError. -/
theorem generate_labels_no_unique_returns {β : Type} [LinearOrder β]
    (rel_mat : List (List β)) (vocab : List String)
    (hrect : ∀ row ∈ rel_mat, row.length = vocab.length)
    (hne : rel_mat ≠ []) (hV : vocab ≠ [])
    (hall : ∀ n, ¬ ((topicRankings rel_mat vocab).map (fun ws => ws.take n)).Nodup) :
    generate_topic_labels_from_top_words rel_mat vocab none "_" defaultLabelsFormat
      = .ok (labelsFromSeqs defaultLabelsFormat "_"
          ((topicRankings rel_mat vocab).map (fun ws => ws.take vocab.length))) := by
  have hVpos : 0 < vocab.length := List.length_pos.mpr hV
  have htry := topicRankings_tryMap_ok rel_mat vocab hrect
  have hdecomp : List.range' 1 vocab.length =
      List.range' 1 (vocab.length - 1) ++ [vocab.length] := by
    have h := List.range'_1_concat 1 (vocab.length - 1)
    have e1 : vocab.length - 1 + 1 = vocab.length := by omega
    have e2 : 1 + (vocab.length - 1) = vocab.length := by omega
    rw [e1, e2] at h
    exact h
  have hpick : pickTopWordSeqs (topicRankings rel_mat vocab)
      (List.range' 1 vocab.length) =
      (topicRankings rel_mat vocab).map (fun ws => ws.take vocab.length) := by
    rw [hdecomp]
    exact pickTopWordSeqs_all_fail _ _ _ (fun m _ => hall m)
  have hmost : (topicRankings rel_mat vocab) ≠ [] := by
    intro hc
    exact hne (List.map_eq_nil_iff.mp hc)
  unfold generate_topic_labels_from_top_words
  rw [htry]
  simp only []
  rw [hpick]
  rw [if_neg ?hempty]
  case hempty =>
    simp only [List.isEmpty_eq_true, List.map_eq_nil_iff]
    exact hmost
  rw [if_pos (labelsFromSeqs_default_nodup _ _)]

/-- Witness for `generate_labels_no_unique_returns`: two topics with
identical relevance rows, so no prefix length separates them. -/
theorem generate_labels_no_unique_returns_witness :
    ((∀ row ∈ [[(7 : Int), 3], [7, 3]], row.length = (["x", "y"] : List String).length)
      ∧ ([[(7 : Int), 3], [7, 3]] : List (List Int)) ≠ []
      ∧ (["x", "y"] : List String) ≠ []
      ∧ (∀ n, ¬ ((topicRankings [[(7 : Int), 3], [7, 3]] ["x", "y"]).map
          (fun ws => ws.take n)).Nodup))
    ∧ generate_topic_labels_from_top_words [[(7 : Int), 3], [7, 3]] ["x", "y"]
        none "_" defaultLabelsFormat
      = .ok (labelsFromSeqs defaultLabelsFormat "_"
          ((topicRankings [[(7 : Int), 3], [7, 3]] ["x", "y"]).map
            (fun ws => ws.take (["x", "y"] : List String).length))) := by
  have hall : ∀ n, ¬ ((topicRankings [[(7 : Int), 3], [7, 3]] ["x", "y"]).map
      (fun ws => ws.take n)).Nodup := by
    intro n
    have hR : topicRankings [[(7 : Int), 3], [7, 3]] ["x", "y"] =
        [["x", "y"], ["x", "y"]] := rfl
    rw [hR]
    intro hc
    simp [List.nodup_cons] at hc
  exact ⟨⟨by decide, by decide, by decide, hall⟩,
    generate_labels_no_unique_returns [[(7 : Int), 3], [7, 3]] ["x", "y"] (by decide)
      (by decide) (by decide) hall⟩

/-- C3 (counterexample): two topics with identical relevance rows over the
two-word vocabulary.  No prefix length (1 or 2 = full vocabulary) gives
distinct tuples, yet the function returns normally with `.ok` labels and, in
particular, does NOT raise an assertion failure. -/
theorem generate_labels_no_unique_cex :
    ¬ ((topicRankings [[(2 : Int), 1], [(2 : Int), 1]] ["a", "b"]).map
        (fun ws => ws.take 1)).Nodup
    ∧ ¬ ((topicRankings [[(2 : Int), 1], [(2 : Int), 1]] ["a", "b"]).map
        (fun ws => ws.take 2)).Nodup
    ∧ generate_topic_labels_from_top_words [[(2 : Int), 1], [(2 : Int), 1]]
        ["a", "b"] none "_" defaultLabelsFormat = .ok ["1_a_b", "2_a_b"]
    ∧ generate_topic_labels_from_top_words [[(2 : Int), 1], [(2 : Int), 1]]
        ["a", "b"] none "_" defaultLabelsFormat ≠ .error .assertionError :=
  ⟨by decide, by decide, by decide, by decide⟩

/-- C10: with zero topics (a relevance matrix with zero rows, as produced by
a `phi` with zero rows), `generate_topic_labels_from_top_words` raises
AssertionError instead of returning an empty label list, both for
`n_words=None` and for any explicitly given valid `n_words`: `n_most_rel`
stays the empty list, which fails the `assert n_most_rel` check. -/
theorem generate_labels_zero_topics_assert {β : Type} [LinearOrder β]
    (vocab : List String) (glue : String) (fmt : Nat → Nat → String → String)
    (nw : Option Int)
    (hval : ∀ k, nw = some k → 1 ≤ k ∧ k ≤ (vocab.length : Int)) :
    generate_topic_labels_from_top_words ([] : List (List β)) vocab nw glue fmt
      = .error .assertionError := by
  have h0 : tryMap (fun t => get_most_relevant_words_for_topic vocab
      ([] : List (List β)) (t : Int) none)
      (List.range (List.length ([] : List (List β)))) = .ok [] := rfl
  cases nw with
  | none =>
    unfold generate_topic_labels_from_top_words
    rw [h0]
    simp only []
    rw [pickTopWordSeqs_nil_most]
    rfl
  | some k =>
    simp only [generate_topic_labels_from_top_words]
    rw [if_pos (hval k rfl)]
    rw [h0]
    simp only []
    rw [pickTopWordSeqs_nil_most]
    rfl

/-- Witness for `generate_labels_zero_topics_assert` with `n_words=None`. -/
theorem generate_labels_zero_topics_assert_witness :
    (∀ k, (none : Option Int) = some k →
      1 ≤ k ∧ k ≤ (((["a"] : List String).length : Int)))
    ∧ generate_topic_labels_from_top_words ([] : List (List Int)) ["a"] none "_"
        defaultLabelsFormat = .error .assertionError :=
  ⟨(fun _ h => nomatch h),
    generate_labels_zero_topics_assert ["a"] "_" defaultLabelsFormat none
      (fun _ h => nomatch h)⟩

/-- Embedding of `get_term_frequencies(dtm)`: column-wise sums of the
document-term matrix. -/
def get_term_frequencies (dtm : List (List ℚ)) : List ℚ :=
  (List.range (ncols dtm)).map (fun j => (dtm.map (fun row => row.getD j 0)).sum)

/-- Embedding of `get_term_proportions(dtm)`: term frequencies normalised by
their total; `ValueError` when the total is zero. -/
def get_term_proportions (dtm : List (List ℚ)) : Except PyError (List ℚ) :=
  let unnorm := get_term_frequencies dtm
  if unnorm.sum = 0 then
    .error (.valueError "`dtm` does not contain any tokens (is all-zero)")
  else
    .ok (unnorm.map (fun x => x / unnorm.sum))

theorem list_sum_map_add (f g : Nat → ℚ) : ∀ (l : List Nat),
    (l.map (fun j => f j + g j)).sum = (l.map f).sum + (l.map g).sum
  | [] => by simp
  | a :: l => by
    simp [list_sum_map_add f g l]
    ring

theorem sum_getD_range (r : List ℚ) :
    ((List.range r.length).map (fun j => r.getD j 0)).sum = r.sum := by
  induction r with
  | nil => rfl
  | cons a tl ih =>
    have h1 : ((fun j => (a :: tl).getD j 0) ∘ Nat.succ) = fun j => tl.getD j 0 := by
      funext j
      simp
    rw [List.length_cons, List.range_succ_eq_map, List.map_cons, List.map_map, h1,
      List.sum_cons, ih]
    simp

/-- Under rectangularity, the sum of the column sums equals the sum of all
entries (the sum of the row sums). -/
theorem term_frequencies_sum (dtm : List (List ℚ)) (C : Nat)
    (hrect : ∀ row ∈ dtm, row.length = C) :
    ((List.range C).map (fun j => (dtm.map (fun row => row.getD j 0)).sum)).sum
      = (dtm.map List.sum).sum := by
  induction dtm with
  | nil => simp
  | cons r rows ih =>
    have hr : r.length = C := hrect r (by simp)
    have hrows : ∀ row ∈ rows, row.length = C := fun row hrow => hrect row (by simp [hrow])
    simp only [List.map_cons, List.sum_cons]
    rw [list_sum_map_add (fun j => r.getD j 0)
      (fun j => (rows.map (fun row => row.getD j 0)).sum), ih hrows, ← hr, sum_getD_range]

theorem list_sum_map_div (s : ℚ) : ∀ (l : List ℚ),
    (l.map (fun x => x / s)).sum = l.sum / s
  | [] => by simp
  | a :: l => by
    simp [list_sum_map_div s l]
    ring

/-- C6: for a rectangular non-negative 2D dtm, `get_term_proportions` returns
a vector summing to 1 whenever the total count is positive, and fails with
`ValueError` if and only if the total is zero. -/
theorem term_proportions_spec (dtm : List (List ℚ))
    (hrect : ∀ row ∈ dtm, row.length = ncols dtm)
    (hnn : ∀ row ∈ dtm, ∀ x ∈ row, (0 : ℚ) ≤ x) :
    (0 < (dtm.map List.sum).sum →
      ∃ p, get_term_proportions dtm = .ok p ∧ p.sum = 1)
    ∧ (get_term_proportions dtm =
        .error (.valueError "`dtm` does not contain any tokens (is all-zero)")
      ↔ (dtm.map List.sum).sum = 0) := by
  have htot : (get_term_frequencies dtm).sum = (dtm.map List.sum).sum :=
    term_frequencies_sum dtm (ncols dtm) hrect
  constructor
  · intro hpos
    have hne : (get_term_frequencies dtm).sum ≠ 0 := by
      rw [htot]
      exact ne_of_gt hpos
    refine ⟨(get_term_frequencies dtm).map
      (fun x => x / (get_term_frequencies dtm).sum), ?_, ?_⟩
    · unfold get_term_proportions
      rw [if_neg hne]
    · rw [list_sum_map_div]
      exact div_self hne
  · constructor
    · intro herr
      by_contra hc
      have hne : (get_term_frequencies dtm).sum ≠ 0 := by
        rw [htot]
        exact hc
      unfold get_term_proportions at herr
      rw [if_neg hne] at herr
      exact Except.noConfusion herr
    · intro hz
      have hz' : (get_term_frequencies dtm).sum = 0 := by
        rw [htot]
        exact hz
      unfold get_term_proportions
      rw [if_pos hz']

/-- Witness for `term_proportions_spec` on a concrete 2x2 identity-like
matrix. -/
theorem term_proportions_spec_witness :
    ((∀ row ∈ [[(1 : ℚ), 0], [0, 1]], row.length = ncols [[(1 : ℚ), 0], [0, 1]])
      ∧ (∀ row ∈ [[(1 : ℚ), 0], [0, 1]], ∀ x ∈ row, (0 : ℚ) ≤ x))
    ∧ ((0 < (([[(1 : ℚ), 0], [0, 1]]).map List.sum).sum →
        ∃ p, get_term_proportions [[(1 : ℚ), 0], [0, 1]] = .ok p ∧ p.sum = 1)
      ∧ (get_term_proportions [[(1 : ℚ), 0], [0, 1]] =
          .error (.valueError "`dtm` does not contain any tokens (is all-zero)")
        ↔ (([[(1 : ℚ), 0], [0, 1]]).map List.sum).sum = 0)) :=
  ⟨⟨by decide, by norm_num⟩,
    term_proportions_spec [[(1 : ℚ), 0], [0, 1]] (by decide) (by norm_num)⟩

/-- Embedding of `itertools.combinations(range(n), 2)`: all strictly
increasing index pairs in lexicographic order. -/
def combPairs (n : Nat) : List (Nat × Nat) :=
  (List.range n).flatMap (fun w1 =>
    (List.range' (w1 + 1) (n - (w1 + 1))).map (fun w2 => (w1, w2)))

/-- A 2D numpy array as consumed by `get_codoc_frequencies`: the list of its
rows TOGETHER with the column count `n_vocab` read off `dtm.shape`.  A bare
list of rows would lose the column count of a zero-row array (numpy shape
`(0, v)`), which the source accepts whenever `v >= 2`; for a genuine numpy
array every row has length `n_vocab` (rectangularity), carried as a
hypothesis where needed. -/
structure Dtm where
  rows : List (List ℚ)
  n_vocab : Nat

/-- IEEE division for the float embedding of `freq /= n_docs`: when the
denominator is zero the float result is not a finite number (`0/0` is NaN;
here `freq <= n_docs`, so a zero denominator always gives `0/0` = NaN),
modelled as `none`; otherwise the exact quotient. -/
def ieeeDiv (a b : ℚ) : Option ℚ :=
  if b = 0 then none else some (a / b)

/-- Embedding of `get_codoc_frequencies(dtm, min_val, proportions)`: for each
pair of distinct columns, the number of rows where both entries reach
`min_val`, optionally divided by the number of rows (IEEE semantics: NaN,
i.e. `none`, when there are zero rows).  The Python dict (whose keys are
inserted in combination order and never repeat) is represented as an
association list in the same order; values are `Option ℚ` with `none`
standing for a non-finite float. -/
def get_codoc_frequencies (dtm : Dtm) (min_val : ℚ) (proportions : Bool) :
    Except PyError (List ((Nat × Nat) × Option ℚ)) :=
  if dtm.n_vocab < 2 then
    .error (.valueError "`dtm` must have at least two columns (i.e. 2 unique words)")
  else
    .ok ((combPairs dtm.n_vocab).map (fun p =>
      (p,
        let freq : ℚ := ((dtm.rows.filter (fun row =>
          decide (min_val ≤ row.getD p.1 0) && decide (min_val ≤ row.getD p.2 0))).length : ℚ)
        if proportions then ieeeDiv freq (dtm.rows.length : ℚ) else some freq)))

theorem sum_range_sub (n : Nat) :
    ((List.range n).map (fun i => n - i - 1)).sum = n.choose 2 := by
  induction n with
  | zero => rfl
  | succ m ih =>
    have h1 : ((fun i => m + 1 - i - 1) ∘ Nat.succ) = fun i => m - i - 1 := by
      funext i
      simp only [Function.comp_apply]
      omega
    rw [List.range_succ_eq_map, List.map_cons, List.map_map, h1, List.sum_cons, ih]
    have h2 : (m + 1).choose 2 = m.choose 1 + m.choose 2 := Nat.choose_succ_succ m 1
    rw [h2, Nat.choose_one_right]
    omega

theorem combPairs_length (n : Nat) : (combPairs n).length = n.choose 2 := by
  unfold combPairs
  rw [List.flatMap, List.length_flatten, List.map_map]
  have h1 : (List.length ∘ fun w1 =>
      (List.range' (w1 + 1) (n - (w1 + 1))).map (fun w2 => (w1, w2))) =
      fun i => n - i - 1 := by
    funext i
    simp [List.length_range']
    omega
  rw [h1, sum_range_sub]

theorem mem_combPairs {n : Nat} {p : Nat × Nat} (hp : p ∈ combPairs n) :
    p.1 < p.2 ∧ p.2 < n := by
  unfold combPairs at hp
  rw [List.mem_flatMap] at hp
  obtain ⟨w1, hw1, hp2⟩ := hp
  rw [List.mem_map] at hp2
  obtain ⟨w2, hw2, hpe⟩ := hp2
  rw [List.mem_range'_1] at hw2
  rw [List.mem_range] at hw1
  subst hpe
  constructor <;> omega

theorem combPairs_nodup (n : Nat) : (combPairs n).Nodup := by
  unfold combPairs
  rw [List.nodup_flatMap]
  constructor
  · intro w1 _
    refine List.Nodup.map ?_ (List.nodup_range' _ _)
    intro a b hab
    exact (Prod.mk.injEq _ _ _ _).mp hab |>.2
  · refine List.Pairwise.imp ?_ (List.pairwise_lt_range n)
    intro a b hab
    rw [Function.onFun]
    rw [List.disjoint_left]
    intro p hpa hpb
    rw [List.mem_map] at hpa hpb
    obtain ⟨x, _, hx⟩ := hpa
    obtain ⟨y, _, hy⟩ := hpb
    rw [← hx] at hy
    have : a = b := ((Prod.mk.injEq _ _ _ _).mp hy).1.symm
    omega

/-- C7 (amended): for any dtm of shape `(n_docs, v)` with `v >= 2`,
`get_codoc_frequencies` returns exactly C(v,2) entries keyed by distinct
strictly increasing pairs, and with `min_val=1, proportions=True` every
value is a finite number in [0,1] PROVIDED the matrix has at least one row
(`n_docs >= 1`); with zero rows every value is `0/0` = NaN, which lies
outside [0,1].  With `v < 2` it fails with `ValueError`. -/
theorem codoc_frequencies_spec :
    (∀ dtm : Dtm, 2 ≤ dtm.n_vocab →
      ∃ m, get_codoc_frequencies dtm 1 true = .ok m
        ∧ m.length = dtm.n_vocab.choose 2
        ∧ (m.map Prod.fst).Nodup
        ∧ (∀ p ∈ m, p.1.1 < p.1.2 ∧ p.1.2 < dtm.n_vocab)
        ∧ (dtm.rows ≠ [] → ∀ p ∈ m, ∃ v, p.2 = some v ∧ 0 ≤ v ∧ v ≤ 1)
        ∧ (dtm.rows = [] → ∀ p ∈ m, p.2 = none))
    ∧ (∀ (dtm : Dtm) (mv : ℚ) (b : Bool), dtm.n_vocab < 2 →
        get_codoc_frequencies dtm mv b =
          .error (.valueError "`dtm` must have at least two columns (i.e. 2 unique words)")) := by
  constructor
  · intro dtm h2
    unfold get_codoc_frequencies
    rw [if_neg (by omega)]
    refine ⟨_, rfl, ?_, ?_, ?_, ?_, ?_⟩
    · rw [List.length_map, combPairs_length]
    · rw [List.map_map]
      have hcomp : (Prod.fst ∘ (fun p : Nat × Nat =>
          (p, let freq : ℚ := ((dtm.rows.filter (fun row =>
                decide ((1 : ℚ) ≤ row.getD p.1 0) &&
                decide ((1 : ℚ) ≤ row.getD p.2 0))).length : ℚ)
              if true then ieeeDiv freq (dtm.rows.length : ℚ) else some freq))) = id := by
        funext p
        rfl
      rw [hcomp, List.map_id]
      exact combPairs_nodup _
    · intro p hp
      rw [List.mem_map] at hp
      obtain ⟨q, hq, rfl⟩ := hp
      exact mem_combPairs hq
    · intro hne p hp
      have hlen : 0 < dtm.rows.length := List.length_pos.mpr hne
      have hlenq : (0 : ℚ) < (dtm.rows.length : ℚ) := by exact_mod_cast hlen
      rw [List.mem_map] at hp
      obtain ⟨q, hq, rfl⟩ := hp
      simp only [if_true, ieeeDiv, if_neg (ne_of_gt hlenq)]
      refine ⟨_, rfl, ?_, ?_⟩
      · apply div_nonneg _ (le_of_lt hlenq)
        exact_mod_cast Nat.zero_le _
      · rw [div_le_one hlenq]
        exact_mod_cast List.length_filter_le _ _
    · intro hemp p hp
      rw [List.mem_map] at hp
      obtain ⟨q, hq, rfl⟩ := hp
      simp [ieeeDiv, hemp]
  · intro dtm mv b hlt
    unfold get_codoc_frequencies
    rw [if_pos hlt]

/-- C7 (counterexample): a zero-row matrix with three columns (numpy shape
`(0, 3)`) passes the column check, and with `proportions=True` every
returned value is `0/0` — NaN (`none`), not a number in [0,1], refuting the
claim's "every value lies in [0,1]". -/
theorem codoc_frequencies_nan_cex :
    get_codoc_frequencies ⟨[], 3⟩ 1 true =
      .ok [((0, 1), none), ((0, 2), none), ((1, 2), none)]
    ∧ ((0, 1), (none : Option ℚ)) ∈
        [((0, 1), (none : Option ℚ)), ((0, 2), none), ((1, 2), none)]
    ∧ ((none : Option ℚ)).isSome = false :=
  ⟨by decide, by decide, by decide⟩

/-- Witness for `codoc_frequencies_spec` at a concrete 2x2 matrix (for the
success part) and a one-column matrix (for the failure part). -/
theorem codoc_frequencies_spec_witness :
    ((2 ≤ (Dtm.mk [[(1 : ℚ), 0], [1, 1]] 2).n_vocab)
      ∧ (∃ m, get_codoc_frequencies ⟨[[(1 : ℚ), 0], [1, 1]], 2⟩ 1 true = .ok m
        ∧ m.length = (Dtm.mk [[(1 : ℚ), 0], [1, 1]] 2).n_vocab.choose 2
        ∧ (m.map Prod.fst).Nodup
        ∧ (∀ p ∈ m, p.1.1 < p.1.2 ∧ p.1.2 < (Dtm.mk [[(1 : ℚ), 0], [1, 1]] 2).n_vocab)
        ∧ ((Dtm.mk [[(1 : ℚ), 0], [1, 1]] 2).rows ≠ [] →
            ∀ p ∈ m, ∃ v, p.2 = some v ∧ 0 ≤ v ∧ v ≤ 1)
        ∧ ((Dtm.mk [[(1 : ℚ), 0], [1, 1]] 2).rows = [] → ∀ p ∈ m, p.2 = none)))
    ∧ ((Dtm.mk [[(5 : ℚ)]] 1).n_vocab < 2
      ∧ get_codoc_frequencies ⟨[[(5 : ℚ)]], 1⟩ 1 false =
          .error (.valueError "`dtm` must have at least two columns (i.e. 2 unique words)")) :=
  ⟨⟨by decide, codoc_frequencies_spec.1 ⟨[[(1 : ℚ), 0], [1, 1]], 2⟩ (by decide)⟩,
    ⟨by decide, codoc_frequencies_spec.2 ⟨[[(5 : ℚ)]], 1⟩ 1 false (by decide)⟩⟩

noncomputable section RealValued

/-- Embedding of `get_marginal_topic_distrib(theta, doc_lengths)`: weight each
document's topic row by its length, sum over documents, normalise.  Real
numbers model the floating-point arrays. -/
def get_marginal_topic_distrib {D T : ℕ} (doc_topic_distrib : Fin D → Fin T → ℝ)
    (doc_lengths : Fin D → ℝ) : Fin T → ℝ :=
  fun t => (∑ d, doc_topic_distrib d t * doc_lengths d) /
    (∑ t', ∑ d, doc_topic_distrib d t' * doc_lengths d)

/-- Embedding of `get_marginal_word_distrib(phi, p_t)`. -/
def get_marginal_word_distrib {T W : ℕ} (topic_word_distrib : Fin T → Fin W → ℝ)
    (p_t : Fin T → ℝ) : Fin W → ℝ :=
  fun w => ∑ t, topic_word_distrib t w * p_t t

/-- Embedding of `get_word_distinctiveness(phi, p_t)`: column-normalise phi
into P(topic|word) and take the KL divergence from `p_t`, per word. -/
def get_word_distinctiveness {T W : ℕ} (topic_word_distrib : Fin T → Fin W → ℝ)
    (p_t : Fin T → ℝ) : Fin W → ℝ :=
  fun w => ∑ t, (topic_word_distrib t w / ∑ t', topic_word_distrib t' w) *
    Real.log ((topic_word_distrib t w / ∑ t', topic_word_distrib t' w) / p_t t)

/-- Embedding of `get_topic_word_relevance(phi, theta, doc_lengths, lambda_)`:
`lambda_ * log(phi) + (1-lambda_) * log(phi / p_w)` elementwise. -/
def get_topic_word_relevance {T W D : ℕ} (topic_word_distrib : Fin T → Fin W → ℝ)
    (doc_topic_distrib : Fin D → Fin T → ℝ) (doc_lengths : Fin D → ℝ)
    (lambda_ : ℝ) : Fin T → Fin W → ℝ :=
  let p_t := get_marginal_topic_distrib doc_topic_distrib doc_lengths
  let p_w := get_marginal_word_distrib topic_word_distrib p_t
  fun t w => lambda_ * Real.log (topic_word_distrib t w)
    + (1 - lambda_) * Real.log (topic_word_distrib t w / p_w w)

end RealValued

/-- C5: with `lambda_=1` the relevance matrix is exactly the elementwise
logarithm of phi (the lift term's weight becomes 0). -/
theorem relevance_lambda_one_eq_log {T W D : ℕ} (phi : Fin T → Fin W → ℝ)
    (theta : Fin D → Fin T → ℝ) (doc_lengths : Fin D → ℝ)
    (hphi : ∀ t w, 0 < phi t w) :
    ∀ t w, get_topic_word_relevance phi theta doc_lengths 1 t w
      = Real.log (phi t w) := by
  intro t w
  simp only [get_topic_word_relevance]
  ring

/-- Witness for `relevance_lambda_one_eq_log` at the one-topic, one-word,
one-document model with phi identically 1. -/
theorem relevance_lambda_one_eq_log_witness :
    (∀ (t : Fin 1) (w : Fin 1), (0 : ℝ) < (fun (_ : Fin 1) (_ : Fin 1) => (1 : ℝ)) t w)
    ∧ ∀ t w, get_topic_word_relevance (fun (_ : Fin 1) (_ : Fin 1) => (1 : ℝ))
        (fun (_ : Fin 1) (_ : Fin 1) => (1 : ℝ)) (fun (_ : Fin 1) => (1 : ℝ)) 1 t w
      = Real.log ((fun (_ : Fin 1) (_ : Fin 1) => (1 : ℝ)) t w) :=
  ⟨fun _ _ => by norm_num,
    relevance_lambda_one_eq_log _ _ _ (fun _ _ => by norm_num)⟩

/-- Gibbs' inequality: the Kullback-Leibler divergence between two strictly
positive probability vectors is non-negative (via `log x ≤ x - 1`). -/
theorem sum_mul_log_div_nonneg {T : ℕ} (q p : Fin T → ℝ)
    (hq : ∀ t, 0 < q t) (hp : ∀ t, 0 < p t)
    (hqs : ∑ t, q t = 1) (hps : ∑ t, p t = 1) :
    0 ≤ ∑ t, q t * Real.log (q t / p t) := by
  have hterm : ∀ t : Fin T, q t - p t ≤ q t * Real.log (q t / p t) := by
    intro t
    have hppos := hp t
    have hqt := hq t
    have hlog : Real.log (p t / q t) ≤ p t / q t - 1 :=
      Real.log_le_sub_one_of_pos (div_pos hppos hqt)
    have hloginv : Real.log (q t / p t) = - Real.log (p t / q t) := by
      rw [← Real.log_inv, inv_div]
    have h3 : q t * (1 - p t / q t) = q t - p t := by
      field_simp
    have h2 : q t * (1 - p t / q t) ≤ q t * (- Real.log (p t / q t)) := by
      apply mul_le_mul_of_nonneg_left _ (le_of_lt hqt)
      linarith
    rw [hloginv]
    linarith
  have hsum2 : ∑ t, (q t - p t) ≤ ∑ t, q t * Real.log (q t / p t) :=
    Finset.sum_le_sum (fun t _ => hterm t)
  have hzero : ∑ t, (q t - p t) = 0 := by
    rw [Finset.sum_sub_distrib, hqs, hps]
    ring
  linarith

/-- C8: for strictly positive row-stochastic phi and a strictly positive
marginal topic distribution summing to 1, every entry of
`get_word_distinctiveness` is non-negative (KL non-negativity). -/
theorem word_distinctiveness_nonneg {T W : ℕ} (phi : Fin T → Fin W → ℝ)
    (p_t : Fin T → ℝ) (hphi : ∀ t w, 0 < phi t w)
    (hrow : ∀ t, ∑ w, phi t w = 1) (hpt : ∀ t, 0 < p_t t)
    (hsum : ∑ t, p_t t = 1) :
    ∀ w, 0 ≤ get_word_distinctiveness phi p_t w := by
  intro w
  have hTpos : 0 < T := by
    by_contra h
    have hT0 : T = 0 := by omega
    subst hT0
    simp at hsum
  have hs : 0 < ∑ t', phi t' w :=
    Finset.sum_pos (fun t _ => hphi t w) ⟨⟨0, hTpos⟩, Finset.mem_univ _⟩
  have hqpos : ∀ t : Fin T, 0 < phi t w / ∑ t', phi t' w :=
    fun t => div_pos (hphi t w) hs
  have hqsum : ∑ t, phi t w / (∑ t', phi t' w) = 1 := by
    rw [← Finset.sum_div]
    exact div_self (ne_of_gt hs)
  exact sum_mul_log_div_nonneg (fun t => phi t w / ∑ t', phi t' w) p_t
    hqpos hpt hqsum hsum

/-- Witness for `word_distinctiveness_nonneg` at the uniform two-topic,
one-word model. -/
theorem word_distinctiveness_nonneg_witness :
    ((∀ (t : Fin 2) (w : Fin 1), (0 : ℝ) < (fun (_ : Fin 2) (_ : Fin 1) => (1 : ℝ)) t w)
      ∧ (∀ t : Fin 2, ∑ w, (fun (_ : Fin 2) (_ : Fin 1) => (1 : ℝ)) t w = 1)
      ∧ (∀ t : Fin 2, (0 : ℝ) < (fun (_ : Fin 2) => (1 / 2 : ℝ)) t)
      ∧ (∑ t : Fin 2, (fun (_ : Fin 2) => (1 / 2 : ℝ)) t = 1))
    ∧ ∀ w, 0 ≤ get_word_distinctiveness (fun (_ : Fin 2) (_ : Fin 1) => (1 : ℝ))
        (fun (_ : Fin 2) => (1 / 2 : ℝ)) w :=
  ⟨⟨fun _ _ => by norm_num, fun _ => by simp, fun _ => by norm_num, by simp⟩,
    word_distinctiveness_nonneg _ _ (fun _ _ => by norm_num) (fun _ => by simp)
      (fun _ => by norm_num) (by simp)⟩
